import Mathlib

/-!
# Verification of the incremental-diff hunk reconciliation engine

Shallow embedding of the hunk reconciliation code of this repository:

* `hunksOverlap`, `reconstructPatch`, `filterPatchHunks` are translated from
  `src/patch-utils.js` (the unnamed source file exporting `filterPatchHunks`).
* `excludeMergeOnlyChanges`, `filterChangedFiles`, `resolveIncrementalBase`
  and `processChangedFiles` are translated from `src/input-processor.js`
  (`_excludeMergeOnlyChanges`, `_filterChangedFiles`, `_processChangedFiles`).
* `parsePatch` is the external `diff` library's single-file patch parser,
  which is not part of this repository's sources; it is modelled from the
  spec (see its doc comment).

Strings are handled at the `List Char` level (`String.data`), so that every
definition is executable and kernel-reducible.  JS numbers that can become
negative (`newStart + newLines - 1`) are computed in `Int`; all parsed header
fields are natural numbers.  JS `null`/`undefined` patch texts are modelled
as `Option String`, and the `MalformedPatch` failure condition as `Except`.
-/

namespace AiCodeReview

/-! ## Character-list utilities (JS string primitives) -/

/-- Split a character list at every occurrence of the character `sep`
(JS `String.prototype.split` with a one-character separator; also the
line-splitting used to model splitting patch text on newlines). -/
def splitOnChar (sep : Char) : List Char → List (List Char)
  | [] => [[]]
  | c :: cs =>
    let r := splitOnChar sep cs
    if c = sep then [] :: r
    else
      match r with
      | [] => [[c]]
      | l :: ls => (c :: l) :: ls

/-- Split on newlines: the lines of a patch text. -/
def splitLines (cs : List Char) : List (List Char) := splitOnChar '\n' cs

/-- Join lines with a single newline between them
(JS `Array.prototype.join("\n")`). -/
def joinLines : List (List Char) → List Char
  | [] => []
  | [l] => l
  | l :: l₂ :: ls => l ++ '\n' :: joinLines (l₂ :: ls)

/-- Boolean list-prefix test (JS `String.prototype.startsWith`, and the
anchored part of a regular-expression match). -/
def isPrefixList : List Char → List Char → Bool
  | [], _ => true
  | _ :: _, [] => false
  | c :: cs, d :: ds => c = d && isPrefixList cs ds

/-- The part of a string before the first occurrence of `sep`
(JS `s.split(sep)[0]` for a non-empty separator `sep`). -/
def splitHead (sep : List Char) : List Char → List Char
  | [] => []
  | c :: cs => if isPrefixList sep (c :: cs) then [] else c :: splitHead sep cs

/-- Remove the first occurrence of `pat` (JS `s.replace(pat, "")` with a
plain-string pattern). -/
def replaceFirst (pat : List Char) : List Char → List Char
  | [] => if isPrefixList pat [] then ([] : List Char).drop pat.length else []
  | c :: cs =>
    if isPrefixList pat (c :: cs) then (c :: cs).drop pat.length
    else c :: replaceFirst pat cs

/-- JS whitespace test for the characters relevant to `String.prototype.trim`. -/
def isJsWhitespace (c : Char) : Bool :=
  c = ' ' || c = '\t' || c = '\n' || c = '\r'

/-- JS `String.prototype.trim`: drop whitespace from both ends. -/
def jsTrim (s : List Char) : List Char :=
  ((s.dropWhile isJsWhitespace).reverse.dropWhile isJsWhitespace).reverse

/-! ## Decimal digits (printing and reading header numbers) -/

/-- The character for a single decimal digit. -/
def digitChar (d : Nat) : Char :=
  match d with
  | 0 => '0' | 1 => '1' | 2 => '2' | 3 => '3' | 4 => '4'
  | 5 => '5' | 6 => '6' | 7 => '7' | 8 => '8' | _ => '9'

/-- The value of a decimal digit character. -/
def charDigit (c : Char) : Nat := c.toNat - 48

/-- Little-endian decimal digits of `n`, with structural fuel so that the
definition is kernel-reducible; `fuel ≥ n` always suffices. -/
def toDigitsRev : Nat → Nat → List Nat
  | 0, _ => []
  | fuel + 1, n => if n = 0 then [] else n % 10 :: toDigitsRev fuel (n / 10)

/-- The decimal digit characters of `n`, most significant first
(the digits JS string interpolation prints for a non-negative integer). -/
def printNatChars (n : Nat) : List Char :=
  if n = 0 then ['0'] else ((toDigitsRev n n).map digitChar).reverse

/-- Read a digit-character list, most significant first, back to a number. -/
def natOfDigitChars (l : List Char) : Nat :=
  l.foldl (fun a c => a * 10 + charDigit c) 0

/-- The value of a little-endian decimal digit list. -/
def digitsVal (ds : List Nat) : Nat :=
  ds.foldr (fun d a => d + 10 * a) 0

/-! ## Hunk model -/

/-- A unified-diff hunk: old/new line ranges plus the literal body lines
(each body line keeps its `+`/`-`/space prefix).  This is the hunk object
produced by the `diff` library and consumed by `patch-utils.js`. -/
structure Hunk where
  oldStart : Nat
  oldLines : Nat
  newStart : Nat
  newLines : Nat
  lines : List (List Char)
deriving DecidableEq, Repr

/-- The `MalformedPatch` failure condition of the parser contract. -/
inductive MalformedPatch where
  | mk
deriving DecidableEq, Repr

/-! ## Patch parser

Modelled from the spec: the parser is the external `diff` library's
`parsePatch`, which is not among this repository's source files.  Per the
spec it turns single-file unified-diff text into structured hunks: a null or
empty input yields an empty hunk list; it operates on the first file section
only; a hunk header `@@ -oldStart,oldLines +newStart,newLines @@` is followed
by body lines prefixed `+`/`-`/space; header lines that do not match the
line-range syntax fail with a `MalformedPatch` condition.  Header counts are
taken verbatim from the header and not re-validated against the body. -/

/-- A line that belongs to a hunk body: prefixed `+`, `-`, a context space,
or the `\ No newline at end of file` backslash marker. -/
def isBodyLine (l : List Char) : Bool :=
  match l with
  | [] => false
  | c :: _ => c = '+' || c = '-' || c = ' ' || c = '\\'

/-- A line that starts a hunk header (begins with `@@`). -/
def isHeaderStart (l : List Char) : Bool :=
  match l with
  | '@' :: '@' :: _ => true
  | _ => false

/-- Consume an expected literal character sequence. -/
def expectChars (pat l : List Char) : Option (List Char) :=
  if isPrefixList pat l then some (l.drop pat.length) else none

/-- Consume a non-empty run of decimal digits and return its value. -/
def readNat (l : List Char) : Option (Nat × List Char) :=
  if l.takeWhile Char.isDigit = [] then none
  else some (natOfDigitChars (l.takeWhile Char.isDigit), l.dropWhile Char.isDigit)

/-- Parse a hunk header line `@@ -a,b +c,d @@...`, returning
`(oldStart, oldLines, newStart, newLines)`. -/
def parseHunkHeader (l : List Char) : Option (Nat × Nat × Nat × Nat) :=
  match expectChars ['@', '@', ' ', '-'] l with
  | none => none
  | some r0 =>
    match readNat r0 with
    | none => none
    | some (o, r1) =>
      match expectChars [','] r1 with
      | none => none
      | some r2 =>
        match readNat r2 with
        | none => none
        | some (ol, r3) =>
          match expectChars [' ', '+'] r3 with
          | none => none
          | some r4 =>
            match readNat r4 with
            | none => none
            | some (n, r5) =>
              match expectChars [','] r5 with
              | none => none
              | some r6 =>
                match readNat r6 with
                | none => none
                | some (nl, r7) =>
                  match expectChars [' ', '@', '@'] r7 with
                  | none => none
                  | some _ => some (o, ol, n, nl)

/-- Parse the hunks of the first file section from a list of lines.  `fuel`
is structural fuel (the initial line count always suffices).  A header line
with bad line-range syntax is a `MalformedPatch`; body lines attach to the
hunk whose header precedes them; empty lines are skipped; any other line
ends the first file section. -/
def parseRest : Nat → List (List Char) → Except MalformedPatch (List Hunk)
  | _, [] => .ok []
  | 0, _ :: _ => .error .mk
  | fuel + 1, l :: ls =>
    if isHeaderStart l then
      match parseHunkHeader l with
      | none => .error .mk
      | some (o, ol, n, nl) =>
        match parseRest fuel (ls.dropWhile isBodyLine) with
        | .error e => .error e
        | .ok hs => .ok (⟨o, ol, n, nl, ls.takeWhile isBodyLine⟩ :: hs)
    else if l = [] then parseRest fuel ls
    else .ok []

/-- Modelled from the spec: the `diff` library's `parsePatch` restricted to
the first file section (the caller always passes single-file patch text).
Null or empty input yields an empty hunk list; leading non-header lines
(file headers, metadata) are skipped. -/
def parsePatch (patchText : Option String) : Except MalformedPatch (List Hunk) :=
  match patchText with
  | none => .ok []
  | some s =>
    let ls := (splitLines s.data).dropWhile (fun l => !isHeaderStart l)
    parseRest ls.length ls

/-! ## Overlap predicate and patch reconstruction (`patch-utils.js`) -/

/-- `hunksOverlap` from `patch-utils.js`: closed-interval intersection of the
new-file line ranges.  JS number arithmetic lets `newStart + newLines - 1`
drop below zero for degenerate hunks, so the endpoints live in `Int`. -/
def hunksOverlap (hunk1 hunk2 : Hunk) : Bool :=
  let h1Start : Int := hunk1.newStart
  let h1End : Int := (hunk1.newStart : Int) + hunk1.newLines - 1
  let h2Start : Int := hunk2.newStart
  let h2End : Int := (hunk2.newStart : Int) + hunk2.newLines - 1
  h1Start ≤ h2End && h2Start ≤ h1End

/-- The header line emitted by `reconstructPatch`:
`@@ -oldStart,oldLines +newStart,newLines @@`. -/
def hunkHeaderChars (h : Hunk) : List Char :=
  ['@', '@', ' ', '-'] ++ printNatChars h.oldStart ++ [','] ++ printNatChars h.oldLines
    ++ [' ', '+'] ++ printNatChars h.newStart ++ [','] ++ printNatChars h.newLines
    ++ [' ', '@', '@']

/-- One hunk block of `reconstructPatch`: `[header, ...lines].join("\n")`. -/
def hunkBlock (h : Hunk) : List Char := joinLines (hunkHeaderChars h :: h.lines)

/-- `reconstructPatch` from `patch-utils.js`: serialize hunks back to patch
text, blocks joined by single newlines, in input order. -/
def reconstructPatch (hunks : List Hunk) : String :=
  String.mk (joinLines (hunks.map hunkBlock))

/-- The flat line list underlying `reconstructPatch`: for each hunk its
header line followed by its body lines. -/
def flatLines : List Hunk → List (List Char)
  | [] => []
  | h :: hs => hunkHeaderChars h :: (h.lines ++ flatLines hs)

/-- A hunk whose body lines are genuine diff body lines: non-empty, prefixed
`+`/`-`/space/backslash, and free of embedded newlines.  Every hunk the
parser produces is good, and good hunks serialize/reparse losslessly. -/
def GoodHunk (h : Hunk) : Prop :=
  ∀ l ∈ h.lines, isBodyLine l = true ∧ '\n' ∉ l

/-- `filterPatchHunks` from `patch-utils.js`.  A falsy (null or empty)
incremental patch returns null.  Otherwise both patch texts are parsed; an
incremental patch with no hunks is returned as-is; a whole-PR patch with no
hunks makes the file merge-only (null); otherwise the incremental hunks that
overlap some whole-PR hunk are kept, null if none survive, else the
reconstructed patch.  Parse failures propagate (the JS has no handler). -/
def filterPatchHunks (incrementalPatch wholePRPatch : Option String) :
    Except MalformedPatch (Option String) :=
  match incrementalPatch with
  | none => .ok none
  | some s =>
    if s = "" then .ok none
    else do
      let incrementalHunks ← parsePatch (some s)
      let wholePRHunks ← parsePatch wholePRPatch
      if incrementalHunks = [] then
        pure (some s)
      else if wholePRHunks = [] then
        pure none
      else
        let filteredHunks := incrementalHunks.filter (fun incHunk =>
          wholePRHunks.any (fun prHunk => hunksOverlap incHunk prHunk))
        if filteredHunks = [] then
          pure none
        else
          pure (some (reconstructPatch filteredHunks))

/-! ## File-level orchestration (`input-processor.js`)

The GitHub client, the review-marker constants (`AI_REVIEW_COMMENT_PREFIX`,
`SUMMARY_SEPARATOR` from `constants.js`) and the comment history are external
to the reconciliation core, so the fetch is a function parameter and the two
constants are string parameters (named `marker` and `sepr`). -/

/-- A changed-file entry of a change set: filename plus raw patch text, the
patch being null for pure renames or binary files. -/
structure ChangedFile where
  filename : String
  patch : Option String
deriving DecidableEq, Repr

/-- The comment predicate of `_processChangedFiles`:
`c.body && c.body.startsWith(AI_REVIEW_COMMENT_PREFIX)` (a null body is
falsy). -/
def commentMatches (marker : String) (body : Option String) : Bool :=
  match body with
  | none => false
  | some b => !(b = "") && isPrefixList marker.data b.data

/-- The base-commit token extraction of `_processChangedFiles`:
`body.split(SUMMARY_SEPARATOR)[0].replace(PREFIX, "").split(" ")[0].trim()`. -/
def extractBaseCommit (marker sepr body : String) : String :=
  String.mk (jsTrim (splitHead [' '] (replaceFirst marker.data (splitHead sepr.data body.data))))

/-- The incremental-base resolution of `_processChangedFiles`: scan the
comment history newest-first for the last review marker; keep the original
PR base when there is none or when the extracted token is empty (falsy). -/
def resolveIncrementalBase (marker sepr originalPRBase : String)
    (comments : List (Option String)) : String :=
  match comments.reverse.find? (commentMatches marker) with
  | some (some body) =>
    let newBaseCommit := extractBaseCommit marker sepr body
    if newBaseCommit = "" then originalPRBase else newBaseCommit
  | _ => originalPRBase

/-- Lookup in the `Map` built by `_excludeMergeOnlyChanges` from the whole-PR
file list; for a duplicated filename the last entry wins, as in
`new Map(files.map(f => [f.filename, f]))`. -/
def lookupFile (files : List ChangedFile) (name : String) : Option ChangedFile :=
  files.reverse.find? (fun f => f.filename = name)

/-- `_excludeMergeOnlyChanges` from `input-processor.js`: per incremental
file, drop it when absent from the whole-PR set, otherwise reconcile its
patch through `filterPatchHunks`, dropping the file when the result is falsy;
a `MalformedPatch` failure propagates (the JS has no handler). -/
def excludeMergeOnlyChanges (changedFiles wholePRFiles : List ChangedFile) :
    Except MalformedPatch (List ChangedFile) := do
  let mapped ← changedFiles.mapM (fun incFile => do
    match lookupFile wholePRFiles incFile.filename with
    | none => pure none
    | some prFile => do
      let filteredPatch ← filterPatchHunks incFile.patch prFile.patch
      match filteredPatch with
      | none => pure none
      | some p =>
        if p = "" then pure (none : Option ChangedFile)
        else pure (some { incFile with patch := some p }))
  pure (mapped.filterMap id)

/-- The `toArray` helper of `_filterChangedFiles`:
`str ? str.split(",").map(s => s.trim()).filter(Boolean) : []`. -/
def toArray (str : String) : List String :=
  if str = "" then []
  else (((splitOnChar ',' str.data).map jsTrim).filter (fun s => !s.isEmpty)).map String.mk

/-- `path.posix.extname` on an already slash-normalized path: the suffix of
the basename from its last dot, empty when there is no dot or the dot leads
the basename (and for the special basename `..`). -/
def extnameOf (filePath : List Char) : List Char :=
  let base := (filePath.reverse.takeWhile (fun c => c != '/')).reverse
  if base = ['.', '.'] then []
  else
    let afterDot := base.reverse.takeWhile (fun c => c != '.')
    if afterDot.length = base.length then []
    else if afterDot.length + 1 = base.length then []
    else '.' :: afterDot.reverse

/-- The `shouldReview` closure of `_filterChangedFiles`: extension allow/deny
lists and path-prefix allow/deny lists over the slash-normalized filename. -/
def shouldReview (incExt excExt incPath excPath : List String)
    (file : ChangedFile) : Bool :=
  let filePath := file.filename.data.map (fun c => if c = '\\' then '/' else c)
  let ext := extnameOf filePath
  let extAllowed := incExt.isEmpty || incExt.any (fun e => e.data = ext)
  let extExcluded := excExt.any (fun e => e.data = ext)
  let inAllowedPath := incPath.isEmpty || incPath.any (fun p => isPrefixList p.data filePath)
  let inExcludedPath := excPath.any (fun p => isPrefixList p.data filePath)
  extAllowed && !extExcluded && inAllowedPath && !inExcludedPath

/-- `_filterChangedFiles` from `input-processor.js`: the out-of-scope
extension/path filter, a plain stable filter over whole files. -/
def filterChangedFiles (changedFiles : List ChangedFile)
    (includeExtensions excludeExtensions includePaths excludePaths : String) :
    List ChangedFile :=
  let incExt := toArray includeExtensions
  let excExt := toArray excludeExtensions
  let incPath := toArray includePaths
  let excPath := toArray excludePaths
  changedFiles.filter (shouldReview incExt excExt incPath excPath)

/-- `_processChangedFiles` from `input-processor.js`: resolve the incremental
base from the comment history, fetch the change set for it, reconcile against
the whole-PR change set only when the run is incremental
(`incrementalBaseCommit !== originalPRBase`), then apply the extension/path
filter.  `getFilesBetweenCommits` stands for the GitHub fetch, keyed by
`(base, head)`. -/
def processChangedFiles (marker sepr originalPRBase headCommit : String)
    (comments : List (Option String))
    (getFilesBetweenCommits : String → String → List ChangedFile)
    (includeExtensions excludeExtensions includePaths excludePaths : String) :
    Except MalformedPatch (List ChangedFile) := do
  let incrementalBaseCommit := resolveIncrementalBase marker sepr originalPRBase comments
  let changedFiles := getFilesBetweenCommits incrementalBaseCommit headCommit
  let changedFiles ←
    if incrementalBaseCommit ≠ originalPRBase then
      excludeMergeOnlyChanges changedFiles (getFilesBetweenCommits originalPRBase headCommit)
    else
      pure changedFiles
  pure (filterChangedFiles changedFiles
    includeExtensions excludeExtensions includePaths excludePaths)

/-! ## List and string lemmas -/

theorem exceptBind_ok {ε α β : Type} (a : α) (f : α → Except ε β) :
    (Except.ok a >>= f) = f a := rfl

theorem splitOnChar_ne_nil (sep : Char) (cs : List Char) : splitOnChar sep cs ≠ [] := by
  induction cs with
  | nil => simp [splitOnChar]
  | cons c cs ih =>
    simp only [splitOnChar]
    split
    · simp
    · split
      · simp
      · simp

theorem not_mem_of_mem_splitOnChar (sep : Char) :
    ∀ cs l, l ∈ splitOnChar sep cs → sep ∉ l := by
  intro cs
  induction cs with
  | nil =>
    intro l h
    simp [splitOnChar] at h
    simp [h]
  | cons c cs ih =>
    intro l h
    simp only [splitOnChar] at h
    by_cases hc : c = sep
    · rw [if_pos hc] at h
      rcases List.mem_cons.mp h with h1 | h1
      · simp [h1]
      · exact ih l h1
    · rw [if_neg hc] at h
      cases hr : splitOnChar sep cs with
      | nil => exact absurd hr (splitOnChar_ne_nil sep cs)
      | cons l0 ls =>
        rw [hr] at h
        rcases List.mem_cons.mp h with h1 | h1
        · subst h1
          intro hmem
          rcases List.mem_cons.mp hmem with h2 | h2
          · exact hc h2.symm
          · exact ih l0 (by rw [hr]; exact List.mem_cons_self l0 ls) h2
        · exact ih l (by rw [hr]; exact List.mem_cons_of_mem l0 h1)

theorem splitOnChar_of_not_mem (sep : Char) :
    ∀ l, sep ∉ l → splitOnChar sep l = [l] := by
  intro l
  induction l with
  | nil => intro _; rfl
  | cons c cs ih =>
    intro h
    have hc : ¬ c = sep := fun hcc => h (by simp [hcc])
    have hcs : sep ∉ cs := fun hm => h (List.mem_cons_of_mem c hm)
    simp only [splitOnChar, if_neg hc, ih hcs]

theorem splitOnChar_append_cons (sep : Char) :
    ∀ l t, sep ∉ l → splitOnChar sep (l ++ sep :: t) = l :: splitOnChar sep t := by
  intro l
  induction l with
  | nil =>
    intro t _
    simp [splitOnChar]
  | cons c cs ih =>
    intro t h
    have hc : ¬ c = sep := fun hcc => h (by simp [hcc])
    have hcs : sep ∉ cs := fun hm => h (List.mem_cons_of_mem c hm)
    simp only [List.cons_append, splitOnChar, if_neg hc, List.append_eq, ih t hcs]

theorem joinLines_append :
    ∀ xs ys : List (List Char), xs ≠ [] → ys ≠ [] →
      joinLines (xs ++ ys) = joinLines xs ++ '\n' :: joinLines ys := by
  intro xs
  induction xs with
  | nil => intro ys h _; exact absurd rfl h
  | cons x xs ih =>
    intro ys _ hys
    cases xs with
    | nil =>
      cases ys with
      | nil => exact absurd rfl hys
      | cons y ys' => simp [joinLines]
    | cons x' xs' =>
      have := ih ys (by simp) hys
      simp only [List.cons_append] at this ⊢
      simp only [joinLines, List.cons_append] at this ⊢
      rw [this]
      simp

theorem splitLines_joinLines :
    ∀ ls : List (List Char), ls ≠ [] → (∀ l ∈ ls, '\n' ∉ l) →
      splitLines (joinLines ls) = ls := by
  intro ls
  induction ls with
  | nil => intro h _; exact absurd rfl h
  | cons l ls ih =>
    intro _ hnl
    cases ls with
    | nil =>
      simp only [joinLines, splitLines]
      exact splitOnChar_of_not_mem '\n' l (hnl l (by simp))
    | cons l₂ ls' =>
      simp only [joinLines, splitLines]
      rw [splitOnChar_append_cons '\n' l (joinLines (l₂ :: ls')) (hnl l (by simp))]
      have := ih (by simp) (fun x hx => hnl x (List.mem_cons_of_mem l hx))
      simp only [splitLines] at this
      rw [this]

theorem takeWhile_all {α : Type} {p : α → Bool} :
    ∀ {xs : List α}, (∀ x ∈ xs, p x = true) → xs.takeWhile p = xs := by
  intro xs
  induction xs with
  | nil => intro _; rfl
  | cons x xs ih =>
    intro h
    simp only [List.takeWhile_cons, h x (by simp), ih (fun y hy => h y (by simp [hy]))]
    simp

theorem dropWhile_all {α : Type} {p : α → Bool} :
    ∀ {xs : List α}, (∀ x ∈ xs, p x = true) → xs.dropWhile p = [] := by
  intro xs
  induction xs with
  | nil => intro _; rfl
  | cons x xs ih =>
    intro h
    simp only [List.dropWhile_cons, h x (by simp), ih (fun y hy => h y (by simp [hy]))]
    simp

theorem takeWhile_append_not {α : Type} {p : α → Bool} {y : α} (hy : p y = false) :
    ∀ (xs ys : List α), (∀ x ∈ xs, p x = true) →
      (xs ++ y :: ys).takeWhile p = xs := by
  intro xs ys
  induction xs with
  | nil => intro _; simp [List.takeWhile_cons, hy]
  | cons x xs ih =>
    intro h
    simp only [List.cons_append, List.takeWhile_cons, h x (by simp),
      ih (fun z hz => h z (by simp [hz]))]
    simp

theorem dropWhile_append_not {α : Type} {p : α → Bool} {y : α} (hy : p y = false) :
    ∀ (xs ys : List α), (∀ x ∈ xs, p x = true) →
      (xs ++ y :: ys).dropWhile p = y :: ys := by
  intro xs ys
  induction xs with
  | nil => intro _; simp [List.dropWhile_cons, hy]
  | cons x xs ih =>
    intro h
    simp only [List.cons_append, List.dropWhile_cons, h x (by simp),
      ih (fun z hz => h z (by simp [hz]))]
    simp

theorem mem_takeWhile_pred {α : Type} {p : α → Bool} :
    ∀ {xs : List α} {x : α}, x ∈ xs.takeWhile p → p x = true := by
  intro xs
  induction xs with
  | nil => intro x h; simp [List.takeWhile] at h
  | cons a xs ih =>
    intro x h
    rw [List.takeWhile_cons] at h
    by_cases ha : p a = true
    · rw [if_pos ha] at h
      rcases List.mem_cons.mp h with h1 | h1
      · rwa [h1]
      · exact ih h1
    · rw [if_neg ha] at h
      simp at h

theorem mem_takeWhile_mem {α : Type} {p : α → Bool} :
    ∀ {xs : List α} {x : α}, x ∈ xs.takeWhile p → x ∈ xs := by
  intro xs
  induction xs with
  | nil => intro x h; simp [List.takeWhile] at h
  | cons a xs ih =>
    intro x h
    rw [List.takeWhile_cons] at h
    by_cases ha : p a = true
    · rw [if_pos ha] at h
      rcases List.mem_cons.mp h with h1 | h1
      · simp [h1]
      · exact List.mem_cons_of_mem a (ih h1)
    · rw [if_neg ha] at h
      simp at h

theorem mem_dropWhile_mem {α : Type} {p : α → Bool} :
    ∀ {xs : List α} {x : α}, x ∈ xs.dropWhile p → x ∈ xs := by
  intro xs
  induction xs with
  | nil => intro x h; simp [List.dropWhile] at h
  | cons a xs ih =>
    intro x h
    rw [List.dropWhile_cons] at h
    by_cases ha : p a = true
    · rw [if_pos ha] at h
      exact List.mem_cons_of_mem a (ih h)
    · rw [if_neg ha] at h
      exact h

theorem isPrefixList_append_self : ∀ xs ys : List Char, isPrefixList xs (xs ++ ys) = true := by
  intro xs ys
  induction xs with
  | nil => rfl
  | cons c cs ih => simp [isPrefixList, ih]

theorem expectChars_append (pat rest : List Char) :
    expectChars pat (pat ++ rest) = some rest := by
  simp [expectChars, isPrefixList_append_self, List.drop_left]

/-! ## Decimal digit lemmas -/

theorem toDigitsRev_lt : ∀ fuel n d, d ∈ toDigitsRev fuel n → d < 10 := by
  intro fuel
  induction fuel with
  | zero => intro n d h; simp [toDigitsRev] at h
  | succ f ih =>
    intro n d h
    simp only [toDigitsRev] at h
    by_cases h0 : n = 0
    · rw [if_pos h0] at h; simp at h
    · rw [if_neg h0] at h
      rcases List.mem_cons.mp h with h1 | h1
      · subst h1; omega
      · exact ih (n / 10) d h1

theorem charDigit_digitChar {d : Nat} (h : d < 10) : charDigit (digitChar d) = d := by
  interval_cases d <;> decide

theorem isDigit_digitChar {d : Nat} (h : d < 10) : (digitChar d).isDigit = true := by
  interval_cases d <;> decide

theorem digitsVal_toDigitsRev : ∀ fuel n, n ≤ fuel → digitsVal (toDigitsRev fuel n) = n := by
  intro fuel
  induction fuel with
  | zero =>
    intro n h
    have : n = 0 := by omega
    subst this
    rfl
  | succ f ih =>
    intro n h
    simp only [toDigitsRev]
    by_cases h0 : n = 0
    · subst h0; rfl
    · rw [if_neg h0]
      have hlt : n / 10 < n := Nat.div_lt_self (by omega) (by omega)
      simp only [digitsVal, List.foldr]
      have := ih (n / 10) (by omega)
      simp only [digitsVal] at this
      rw [this]
      omega

theorem foldr_charDigit_digitChar :
    ∀ ds : List Nat, (∀ d ∈ ds, d < 10) →
      ds.foldr (fun d a => a * 10 + charDigit (digitChar d)) 0 = digitsVal ds := by
  intro ds
  induction ds with
  | nil => intro _; rfl
  | cons d ds ih =>
    intro h
    simp only [List.foldr, digitsVal] at ih ⊢
    rw [ih (fun x hx => h x (by simp [hx])), charDigit_digitChar (h d (by simp))]
    omega

theorem natOfDigitChars_printNatChars (n : Nat) :
    natOfDigitChars (printNatChars n) = n := by
  by_cases h0 : n = 0
  · subst h0; decide
  · simp only [printNatChars, if_neg h0, natOfDigitChars]
    rw [List.foldl_reverse, List.foldr_map]
    exact (foldr_charDigit_digitChar (toDigitsRev n n)
      (fun d hd => toDigitsRev_lt n n d hd)).trans (digitsVal_toDigitsRev n n le_rfl)

theorem printNatChars_isDigit (n : Nat) :
    ∀ c ∈ printNatChars n, c.isDigit = true := by
  by_cases h0 : n = 0
  · subst h0; intro c hc; simp [printNatChars] at hc; subst hc; decide
  · intro c hc
    simp only [printNatChars, if_neg h0, List.mem_reverse, List.mem_map] at hc
    obtain ⟨d, hd, rfl⟩ := hc
    exact isDigit_digitChar (toDigitsRev_lt n n d hd)

theorem printNatChars_ne_nil (n : Nat) : printNatChars n ≠ [] := by
  by_cases h0 : n = 0
  · subst h0; decide
  · simp only [printNatChars, if_neg h0]
    cases n with
    | zero => exact absurd rfl h0
    | succ m =>
      simp only [toDigitsRev, if_neg h0]
      simp

/-! ## Header print/parse roundtrip -/

theorem optBind_some {α β : Type} (a : α) (f : α → Option β) :
    ((some a : Option α) >>= f) = f a := rfl

theorem readNat_printNat_comma (k : Nat) (r : List Char) :
    readNat (printNatChars k ++ ',' :: r) = some (k, ',' :: r) := by
  have hall := printNatChars_isDigit k
  have hc : (',' : Char).isDigit = false := by decide
  simp only [readNat, takeWhile_append_not hc (printNatChars k) r hall,
    dropWhile_append_not hc (printNatChars k) r hall,
    if_neg (printNatChars_ne_nil k), natOfDigitChars_printNatChars]

theorem readNat_printNat_space (k : Nat) (r : List Char) :
    readNat (printNatChars k ++ ' ' :: r) = some (k, ' ' :: r) := by
  have hall := printNatChars_isDigit k
  have hc : (' ' : Char).isDigit = false := by decide
  simp only [readNat, takeWhile_append_not hc (printNatChars k) r hall,
    dropWhile_append_not hc (printNatChars k) r hall,
    if_neg (printNatChars_ne_nil k), natOfDigitChars_printNatChars]

theorem expectChars_cons1 (c1 : Char) (r : List Char) :
    expectChars [c1] (c1 :: r) = some r := by
  simp [expectChars, isPrefixList]

theorem expectChars_cons2 (c1 c2 : Char) (r : List Char) :
    expectChars [c1, c2] (c1 :: c2 :: r) = some r := by
  simp [expectChars, isPrefixList]

theorem expectChars_cons3 (c1 c2 c3 : Char) (r : List Char) :
    expectChars [c1, c2, c3] (c1 :: c2 :: c3 :: r) = some r := by
  simp [expectChars, isPrefixList]

theorem expectChars_cons4 (c1 c2 c3 c4 : Char) (r : List Char) :
    expectChars [c1, c2, c3, c4] (c1 :: c2 :: c3 :: c4 :: r) = some r := by
  simp [expectChars, isPrefixList]

theorem parseHunkHeader_hunkHeaderChars (h : Hunk) :
    parseHunkHeader (hunkHeaderChars h) =
      some (h.oldStart, h.oldLines, h.newStart, h.newLines) := by
  simp only [parseHunkHeader, hunkHeaderChars, List.append_assoc, List.cons_append,
    List.nil_append, expectChars_cons4, readNat_printNat_comma, expectChars_cons1,
    readNat_printNat_space, expectChars_cons2, expectChars_cons3]

theorem isHeaderStart_hunkHeaderChars (h : Hunk) :
    isHeaderStart (hunkHeaderChars h) = true := rfl

theorem isBodyLine_hunkHeaderChars (h : Hunk) :
    isBodyLine (hunkHeaderChars h) = false := rfl

theorem newline_not_mem_hunkHeaderChars (h : Hunk) :
    '\n' ∉ hunkHeaderChars h := by
  have hd : ∀ n : Nat, '\n' ∉ printNatChars n := by
    intro n hn
    have := printNatChars_isDigit n '\n' hn
    simp [Char.isDigit] at this
  intro hmem
  simp only [hunkHeaderChars, List.append_assoc] at hmem
  rcases List.mem_append.mp hmem with h1 | h1
  · exact absurd h1 (by decide)
  rcases List.mem_append.mp h1 with h2 | h2
  · exact hd _ h2
  rcases List.mem_append.mp h2 with h3 | h3
  · exact absurd h3 (by decide)
  rcases List.mem_append.mp h3 with h4 | h4
  · exact hd _ h4
  rcases List.mem_append.mp h4 with h5 | h5
  · exact absurd h5 (by decide)
  rcases List.mem_append.mp h5 with h6 | h6
  · exact hd _ h6
  rcases List.mem_append.mp h6 with h7 | h7
  · exact absurd h7 (by decide)
  rcases List.mem_append.mp h7 with h8 | h8
  · exact hd _ h8
  exact absurd h8 (by decide)

/-! ## Parser / reconstructor roundtrip -/

theorem flatLines_ne_nil (h : Hunk) (hs : List Hunk) : flatLines (h :: hs) ≠ [] := by
  simp [flatLines]

theorem newline_not_mem_flatLines :
    ∀ hs : List Hunk, (∀ h ∈ hs, GoodHunk h) →
      ∀ l ∈ flatLines hs, '\n' ∉ l := by
  intro hs
  induction hs with
  | nil => intro _ l hl; simp [flatLines] at hl
  | cons h hs ih =>
    intro hgood l hl
    simp only [flatLines, List.mem_cons, List.mem_append] at hl
    rcases hl with h1 | h1 | h1
    · subst h1; exact newline_not_mem_hunkHeaderChars h
    · exact ((hgood h (by simp)) l h1).2
    · exact ih (fun x hx => hgood x (List.mem_cons_of_mem h hx)) l h1

theorem joinLines_map_hunkBlock :
    ∀ hs : List Hunk, joinLines (hs.map hunkBlock) = joinLines (flatLines hs) := by
  intro hs
  induction hs with
  | nil => rfl
  | cons h hs ih =>
    cases hs with
    | nil => simp [hunkBlock, flatLines, joinLines]
    | cons h2 hs2 =>
      have h1 : flatLines (h :: h2 :: hs2) =
          (hunkHeaderChars h :: h.lines) ++ flatLines (h2 :: hs2) := by
        simp [flatLines]
      rw [h1, joinLines_append (hunkHeaderChars h :: h.lines) (flatLines (h2 :: hs2))
        (by simp) (flatLines_ne_nil h2 hs2)]
      rw [List.map_cons]
      rw [show joinLines (hunkBlock h :: List.map hunkBlock (h2 :: hs2)) =
        hunkBlock h ++ '\n' :: joinLines (List.map hunkBlock (h2 :: hs2)) from rfl]
      rw [ih]
      rfl

theorem parseRest_flatLines :
    ∀ (hs : List Hunk) (fuel : Nat), (∀ h ∈ hs, GoodHunk h) →
      (flatLines hs).length ≤ fuel → parseRest fuel (flatLines hs) = .ok hs := by
  intro hs
  induction hs with
  | nil => intro fuel _ _; cases fuel <;> rfl
  | cons h hs ih =>
    intro fuel hgood hlen
    cases fuel with
    | zero => simp [flatLines] at hlen
    | succ f =>
      have hbody : ∀ l ∈ h.lines, isBodyLine l = true :=
        fun l hl => ((hgood h (by simp)) l hl).1
      rw [show flatLines (h :: hs) = hunkHeaderChars h :: (h.lines ++ flatLines hs) from rfl]
      simp only [parseRest, isHeaderStart_hunkHeaderChars h, if_true,
        parseHunkHeader_hunkHeaderChars h]
      cases hs with
      | nil =>
        rw [show flatLines ([] : List Hunk) = [] from rfl, List.append_nil]
        rw [takeWhile_all hbody, dropWhile_all hbody]
        rw [show parseRest f [] = Except.ok [] from by cases f <;> rfl]
      | cons h2 hs2 =>
        have hhead : isBodyLine (hunkHeaderChars h2) = false := isBodyLine_hunkHeaderChars h2
        rw [show flatLines (h2 :: hs2) = hunkHeaderChars h2 :: (h2.lines ++ flatLines hs2) from rfl]
        rw [takeWhile_append_not hhead _ _ hbody, dropWhile_append_not hhead _ _ hbody]
        have hlen2 : (flatLines (h2 :: hs2)).length ≤ f := by
          simp only [flatLines, List.length_cons, List.length_append] at hlen ⊢
          omega
        have hih : parseRest f (hunkHeaderChars h2 :: (h2.lines ++ flatLines hs2)) =
            .ok (h2 :: hs2) :=
          ih f (fun x hx => hgood x (List.mem_cons_of_mem h hx)) hlen2
        rw [hih]

theorem parsePatch_reconstructPatch (hs : List Hunk) (hgood : ∀ h ∈ hs, GoodHunk h) :
    parsePatch (some (reconstructPatch hs)) = .ok hs := by
  cases hs with
  | nil => rfl
  | cons h hs' =>
    have hdata : (reconstructPatch (h :: hs')).data = joinLines (flatLines (h :: hs')) := by
      rw [show (reconstructPatch (h :: hs')).data = joinLines ((h :: hs').map hunkBlock) from rfl]
      exact joinLines_map_hunkBlock (h :: hs')
    simp only [parsePatch, hdata]
    rw [show splitLines (joinLines (flatLines (h :: hs'))) = flatLines (h :: hs') from
      splitLines_joinLines _ (flatLines_ne_nil h hs') (newline_not_mem_flatLines _ hgood)]
    rw [show flatLines (h :: hs') = hunkHeaderChars h :: (h.lines ++ flatLines hs') from rfl]
    rw [List.dropWhile_cons]
    simp only [isHeaderStart_hunkHeaderChars h, Bool.not_true, if_false]
    exact parseRest_flatLines (h :: hs') _ hgood le_rfl

theorem parseRest_good :
    ∀ (fuel : Nat) (ls : List (List Char)) (hs : List Hunk),
      parseRest fuel ls = .ok hs → (∀ l ∈ ls, '\n' ∉ l) →
      ∀ h ∈ hs, GoodHunk h := by
  intro fuel
  induction fuel with
  | zero =>
    intro ls hs hp hnl
    cases ls with
    | nil =>
      simp only [parseRest, Except.ok.injEq] at hp
      subst hp
      intro h hh
      simp at hh
    | cons l ls => simp [parseRest] at hp
  | succ f ih =>
    intro ls hs hp hnl
    cases ls with
    | nil =>
      simp only [parseRest, Except.ok.injEq] at hp
      subst hp
      intro h hh
      simp at hh
    | cons l ls =>
      simp only [parseRest] at hp
      by_cases hhead : isHeaderStart l = true
      · rw [if_pos hhead] at hp
        cases hdr : parseHunkHeader l with
        | none => rw [hdr] at hp; simp at hp
        | some quad =>
          rw [hdr] at hp
          obtain ⟨o, ol, n, nl⟩ := quad
          cases hrec : parseRest f (ls.dropWhile isBodyLine) with
          | error e => rw [hrec] at hp; simp at hp
          | ok hs' =>
            rw [hrec] at hp
            simp only [Except.ok.injEq] at hp
            subst hp
            intro h hh
            rcases List.mem_cons.mp hh with h1 | h1
            · subst h1
              intro lbody hlb
              refine ⟨mem_takeWhile_pred hlb, ?_⟩
              exact hnl lbody (List.mem_cons_of_mem l (mem_takeWhile_mem hlb))
            · exact ih _ _ hrec
                (fun x hx => hnl x (List.mem_cons_of_mem l (mem_dropWhile_mem hx))) h h1
      · rw [if_neg hhead] at hp
        by_cases hnil : l = []
        · rw [if_pos hnil] at hp
          exact ih _ _ hp (fun x hx => hnl x (List.mem_cons_of_mem l hx))
        · rw [if_neg hnil] at hp
          simp only [Except.ok.injEq] at hp
          subst hp
          intro h hh
          simp at hh

theorem parsePatch_good (s : String) (hs : List Hunk)
    (hp : parsePatch (some s) = .ok hs) : ∀ h ∈ hs, GoodHunk h := by
  simp only [parsePatch] at hp
  exact parseRest_good _ _ _ hp
    (fun l hl => not_mem_of_mem_splitOnChar '\n' s.data l (mem_dropWhile_mem hl))

/-! ## Reconciler and orchestrator lemmas -/

theorem filterPatchHunks_parsed (s : String) (hs0 : ¬ s = "") (w : Option String)
    (incHunks prHunks : List Hunk)
    (hinc : parsePatch (some s) = .ok incHunks) (hw : parsePatch w = .ok prHunks) :
    filterPatchHunks (some s) w = .ok (
      if incHunks = [] then some s
      else if prHunks = [] then none
      else if incHunks.filter (fun incHunk =>
          prHunks.any (fun prHunk => hunksOverlap incHunk prHunk)) = [] then none
      else some (reconstructPatch (incHunks.filter (fun incHunk =>
        prHunks.any (fun prHunk => hunksOverlap incHunk prHunk))))) := by
  simp only [filterPatchHunks, if_neg hs0, hinc, hw, exceptBind_ok]
  split_ifs <;> rfl

theorem processChangedFiles_full_review
    (marker sepr originalPRBase headCommit : String)
    (comments : List (Option String))
    (getFilesBetweenCommits : String → String → List ChangedFile)
    (incExt excExt incPath excPath : String)
    (hres : resolveIncrementalBase marker sepr originalPRBase comments = originalPRBase) :
    processChangedFiles marker sepr originalPRBase headCommit comments
        getFilesBetweenCommits incExt excExt incPath excPath
      = .ok (filterChangedFiles (getFilesBetweenCommits originalPRBase headCommit)
          incExt excExt incPath excPath) := by
  simp only [processChangedFiles, hres]
  rw [if_neg (fun hcon => hcon rfl)]
  rfl

/-! ## Claim theorems -/

/-- C1 (counterexample): the claim that an empty or null incremental patch is
returned unchanged is false — `filterPatchHunks` returns null for a null or
empty-string incremental patch (its first guard), and the caller
`excludeMergeOnlyChanges` therefore excludes the file instead of retaining it
with zero hunks. -/
theorem c1_empty_incremental_counterexample :
    filterPatchHunks (some "") (some "@@ -1,1 +1,1 @@\n x") = .ok none ∧
    filterPatchHunks none (some "@@ -1,1 +1,1 @@\n x") = .ok none ∧
    excludeMergeOnlyChanges [⟨"a.js", none⟩] [⟨"a.js", some "@@ -1,1 +1,1 @@\n x"⟩] = .ok [] ∧
    filterPatchHunks (some "") (some "@@ -1,1 +1,1 @@\n x") ≠ .ok (some "") := by
  refine ⟨rfl, rfl, rfl, ?_⟩
  intro hcon
  rw [show filterPatchHunks (some "") (some "@@ -1,1 +1,1 @@\n x") = .ok none from rfl] at hcon
  injection hcon with hcon'
  exact Option.noConfusion hcon'

/-- C1 (amended): only an incremental patch whose text is non-empty (truthy in
JS) yet parses to zero hunks is returned unchanged; a null or empty-string
incremental patch makes `filterPatchHunks` return null, so the file is
excluded rather than retained with zero hunks. -/
theorem c1_empty_incremental_amended (w : Option String) (s : String) (rs : List Hunk)
    (hs0 : ¬ s = "") (hparse : parsePatch (some s) = .ok [])
    (hw : parsePatch w = .ok rs) :
    filterPatchHunks none w = .ok none ∧
    filterPatchHunks (some "") w = .ok none ∧
    filterPatchHunks (some s) w = .ok (some s) := by
  refine ⟨rfl, rfl, ?_⟩
  rw [filterPatchHunks_parsed s hs0 w [] rs hparse hw]
  simp

/-- Witness for C1 (amended) at concrete inputs: a whitespace-only incremental
patch (truthy, zero hunks) is returned unchanged, while null and empty-string
incremental patches yield null. -/
theorem c1_empty_incremental_witness :
    filterPatchHunks none none = .ok none ∧
    filterPatchHunks (some "") none = .ok none ∧
    filterPatchHunks (some " ") none = .ok (some " ") :=
  c1_empty_incremental_amended none " " [] (by decide) rfl rfl

/-- C2 (code bug): under the spec's parser contract, a single file whose patch
text has a malformed hunk header makes the whole run fail — the
`MalformedPatch` condition propagates out of `filterPatchHunks`,
`excludeMergeOnlyChanges` and `processChangedFiles` because no caller handles
it; removing that one file from the change set makes the same run succeed and
reconcile the remaining file, so one bad file aborts everything. -/
theorem c2_malformed_patch_aborts_run :
    processChangedFiles "RB:" "||" "base" "head" [some "RB:abc"]
      (fun base _ => if base = "abc"
        then [⟨"a.js", some "@@ bad @@"⟩, ⟨"b.js", some "@@ -1,1 +1,1 @@\n x"⟩]
        else [⟨"a.js", some "@@ -1,1 +1,1 @@\n y"⟩, ⟨"b.js", some "@@ -1,1 +1,1 @@\n x"⟩])
      "" "" "" "" = .error .mk ∧
    processChangedFiles "RB:" "||" "base" "head" [some "RB:abc"]
      (fun base _ => if base = "abc"
        then [⟨"b.js", some "@@ -1,1 +1,1 @@\n x"⟩]
        else [⟨"a.js", some "@@ -1,1 +1,1 @@\n y"⟩, ⟨"b.js", some "@@ -1,1 +1,1 @@\n x"⟩])
      "" "" "" "" = .ok [⟨"b.js", some "@@ -1,1 +1,1 @@\n x"⟩] := by
  constructor <;> rfl

/-- C3: for incremental and reference patches that each parse to at least one
hunk, the reconciler keeps exactly the incremental hunks overlapping at least
one reference hunk (existential match), as a stable sublist of the original
order with no deduplication, returns null when no hunk survives, and the
reconstructed result re-parses to exactly the surviving hunks. -/
theorem c3_reconcile_existential_filter (incS refS : String) (hincS : ¬ incS = "")
    (incHunks refHunks surviving : List Hunk)
    (hinc : parsePatch (some incS) = .ok incHunks) (hincne : incHunks ≠ [])
    (href : parsePatch (some refS) = .ok refHunks) (hrefne : refHunks ≠ [])
    (hsurv : surviving = incHunks.filter (fun incHunk =>
      refHunks.any (fun prHunk => hunksOverlap incHunk prHunk))) :
    (surviving = [] → filterPatchHunks (some incS) (some refS) = .ok none) ∧
    (surviving ≠ [] →
      filterPatchHunks (some incS) (some refS) = .ok (some (reconstructPatch surviving)) ∧
      parsePatch (some (reconstructPatch surviving)) = .ok surviving) ∧
    surviving.Sublist incHunks ∧
    (∀ h, h ∈ surviving ↔ h ∈ incHunks ∧ ∃ r ∈ refHunks, hunksOverlap h r = true) := by
  have hbase := filterPatchHunks_parsed incS hincS (some refS) incHunks refHunks hinc href
  rw [← hsurv] at hbase
  refine ⟨?_, ?_, ?_, ?_⟩
  · intro he
    rw [hbase, if_neg hincne, if_neg hrefne, if_pos he]
  · intro hne
    constructor
    · rw [hbase, if_neg hincne, if_neg hrefne, if_neg hne]
    · refine parsePatch_reconstructPatch surviving ?_
      intro h hh
      refine parsePatch_good incS incHunks hinc h ?_
      rw [hsurv] at hh
      exact List.mem_of_mem_filter hh
  · rw [hsurv]; exact List.filter_sublist _
  · intro h
    rw [hsurv]
    simp [List.mem_filter, List.any_eq_true]

/-- Witness for C3 at concrete inputs: of two incremental hunks only the one
overlapping the single reference hunk survives, and the reconciler returns
its reconstruction. -/
theorem c3_reconcile_witness :
    filterPatchHunks (some "@@ -1,1 +1,1 @@\n x\n@@ -9,1 +9,1 @@\n y")
        (some "@@ -1,2 +1,2 @@\n a\n b")
      = .ok (some (reconstructPatch [⟨1, 1, 1, 1, [[' ', 'x']]⟩])) :=
  ((c3_reconcile_existential_filter
      "@@ -1,1 +1,1 @@\n x\n@@ -9,1 +9,1 @@\n y" "@@ -1,2 +1,2 @@\n a\n b" (by decide)
      [⟨1, 1, 1, 1, [[' ', 'x']]⟩, ⟨9, 1, 9, 1, [[' ', 'y']]⟩]
      [⟨1, 2, 1, 2, [[' ', 'a'], [' ', 'b']]⟩]
      [⟨1, 1, 1, 1, [[' ', 'x']]⟩]
      rfl (by decide) rfl (by decide) (by decide)).2.1 (by decide)).1

/-- C4 (counterexample): the claim that a degenerate hunk (`newLines = 0`)
overlaps `b` exactly when `b`'s range includes the point `a.newStart` is
false — here `b`'s range `[5, 7]` includes the point `a.newStart = 5`, yet
`hunksOverlap` is false, because the code demands `b.newStart ≤ a.newStart - 1`. -/
theorem c4_point_inclusion_counterexample :
    hunksOverlap ⟨1, 0, 5, 0, []⟩ ⟨1, 3, 5, 3, []⟩ = false ∧
    ((5 : Int) ≤ (5 : Int) ∧ (5 : Int) ≤ (5 : Int) + (3 : Int) - 1) := by
  decide

/-- C4 (amended): `hunksOverlap a a = true` for `a.newLines ≥ 1`; and for
`a.newLines = 0`, `hunksOverlap a b` is true exactly when `b`'s new-file range
contains both points `a.newStart - 1` and `a.newStart`, i.e.
`b.newStart ≤ a.newStart - 1` and `a.newStart ≤ b.newStart + b.newLines - 1`
(so a reference hunk beginning exactly at `a.newStart` does not overlap `a`). -/
theorem c4_overlap_reflexivity_amended (a b : Hunk) :
    (1 ≤ a.newLines → hunksOverlap a a = true) ∧
    (a.newLines = 0 → (hunksOverlap a b = true ↔
      ((b.newStart : Int) ≤ (a.newStart : Int) - 1 ∧
       (a.newStart : Int) ≤ (b.newStart : Int) + (b.newLines : Int) - 1))) := by
  constructor
  · intro h1
    simp only [hunksOverlap, Bool.and_eq_true, decide_eq_true_eq]
    omega
  · intro h0
    simp only [hunksOverlap, h0, Bool.and_eq_true, decide_eq_true_eq]
    omega

/-- Witness for C4 (amended) at concrete hunks: reflexivity for a hunk with
two new lines, and the corrected boundary condition for a pure deletion at
point 5 against a reference hunk spanning `[3, 6]`. -/
theorem c4_overlap_reflexivity_witness :
    hunksOverlap ⟨1, 1, 5, 2, []⟩ ⟨1, 1, 5, 2, []⟩ = true ∧
    (hunksOverlap ⟨1, 0, 5, 0, []⟩ ⟨1, 3, 3, 4, []⟩ = true ↔
      ((3 : Int) ≤ (5 : Int) - 1 ∧ (5 : Int) ≤ (3 : Int) + (4 : Int) - 1)) :=
  ⟨(c4_overlap_reflexivity_amended ⟨1, 1, 5, 2, []⟩ ⟨1, 1, 5, 2, []⟩).1 (by decide),
   (c4_overlap_reflexivity_amended ⟨1, 0, 5, 0, []⟩ ⟨1, 3, 3, 4, []⟩).2 (by decide)⟩

/-- C5: the overlap predicate returns true if and only if
`aStart ≤ bEnd ∧ bStart ≤ aEnd` with `aStart = a.newStart`,
`aEnd = a.newStart + a.newLines - 1` (and symmetrically for `b`), computed
on the new-file ranges with the same inequality for every hunk, including
degenerate ones with `newLines = 0`. -/
theorem c5_overlap_iff (a b : Hunk) :
    hunksOverlap a b = true ↔
      ((a.newStart : Int) ≤ (b.newStart : Int) + (b.newLines : Int) - 1 ∧
       (b.newStart : Int) ≤ (a.newStart : Int) + (a.newLines : Int) - 1) := by
  simp [hunksOverlap]

/-- C6: when the reference (whole-PR) patch parses to zero hunks while the
incremental patch has at least one hunk, the reconciler returns null — and a
null reference patch (file absent from the whole-PR diff) is treated
identically. -/
theorem c6_zero_hunk_reference (s : String) (hs0 : ¬ s = "") (incHunks : List Hunk)
    (hinc : parsePatch (some s) = .ok incHunks) (hne : incHunks ≠ [])
    (w : Option String) (hw : parsePatch w = .ok []) :
    filterPatchHunks (some s) w = .ok none ∧
    filterPatchHunks (some s) none = .ok none := by
  constructor
  · rw [filterPatchHunks_parsed s hs0 w incHunks [] hinc hw]
    simp [hne]
  · rw [filterPatchHunks_parsed s hs0 none incHunks [] hinc rfl]
    simp [hne]

/-- Witness for C6 at concrete inputs: a one-hunk incremental patch against a
reference text with no hunks, and against a null reference. -/
theorem c6_zero_hunk_reference_witness :
    filterPatchHunks (some "@@ -1,1 +1,1 @@\n x") (some "xyz") = .ok none ∧
    filterPatchHunks (some "@@ -1,1 +1,1 @@\n x") none = .ok none :=
  c6_zero_hunk_reference "@@ -1,1 +1,1 @@\n x" (by decide)
    [⟨1, 1, 1, 1, [[' ', 'x']]⟩] rfl (by decide) (some "xyz") rfl

/-- C7: parsing, reconstructing and re-parsing is stable — for any patch text
that parses to hunks `hs`, `parsePatch (reconstructPatch hs)` yields exactly
`hs` again. -/
theorem c7_roundtrip (x : String) (hs : List Hunk)
    (hx : parsePatch (some x) = .ok hs) :
    parsePatch (some (reconstructPatch hs)) = .ok hs :=
  parsePatch_reconstructPatch hs (parsePatch_good x hs hx)

/-- Witness for C7 at a concrete patch text with an addition and a context
line. -/
theorem c7_roundtrip_witness :
    parsePatch (some (reconstructPatch [⟨1, 1, 2, 3, [['+', 'a', 'b'], [' ', 'x']]⟩])) =
      .ok [⟨1, 1, 2, 3, [['+', 'a', 'b'], [' ', 'x']]⟩] :=
  c7_roundtrip "@@ -1,1 +2,3 @@\n+ab\n x" [⟨1, 1, 2, 3, [['+', 'a', 'b'], [' ', 'x']]⟩] rfl

/-- C8: when the resolved incremental base equals the pull request's original
base (full review), the orchestrator passes every file's patch through
unchanged — the result is exactly the extension/path filter applied to the
fetched change set, a sublist of it, so reconciliation alters or drops no
hunk of any file. -/
theorem c8_full_review_passthrough
    (marker sepr originalPRBase headCommit : String)
    (comments : List (Option String))
    (getFilesBetweenCommits : String → String → List ChangedFile)
    (incExt excExt incPath excPath : String)
    (hres : resolveIncrementalBase marker sepr originalPRBase comments = originalPRBase) :
    processChangedFiles marker sepr originalPRBase headCommit comments
        getFilesBetweenCommits incExt excExt incPath excPath
      = .ok (filterChangedFiles (getFilesBetweenCommits originalPRBase headCommit)
          incExt excExt incPath excPath) ∧
    (filterChangedFiles (getFilesBetweenCommits originalPRBase headCommit)
        incExt excExt incPath excPath).Sublist
      (getFilesBetweenCommits originalPRBase headCommit) := by
  refine ⟨processChangedFiles_full_review marker sepr originalPRBase headCommit comments
    getFilesBetweenCommits incExt excExt incPath excPath hres, ?_⟩
  simp only [filterChangedFiles]
  exact List.filter_sublist _

/-- Witness for C8 at a concrete full review: an empty comment history
resolves to the original base, and the single fetched file passes through. -/
theorem c8_full_review_witness :
    processChangedFiles "RB:" "||" "base" "head" []
        (fun _ _ => [⟨"a.js", some "p"⟩]) "" "" "" ""
      = .ok (filterChangedFiles [⟨"a.js", some "p"⟩] "" "" "" "") ∧
    (filterChangedFiles [⟨"a.js", some "p"⟩] "" "" "" "").Sublist [⟨"a.js", some "p"⟩] :=
  c8_full_review_passthrough "RB:" "||" "base" "head" []
    (fun _ _ => [⟨"a.js", some "p"⟩]) "" "" "" "" rfl

/-- C9: the overlap predicate is symmetric. -/
theorem c9_overlap_symm (a b : Hunk) : hunksOverlap a b = hunksOverlap b a := by
  simp only [hunksOverlap]
  rw [Bool.and_comm]

/-- C10: when the most recent matching review comment yields an empty commit
token (for example a body consisting of only the marker prefix), the
orchestrator keeps the pull request's original base commit and performs a
full review — no merge-only reconciliation is applied. -/
theorem c10_empty_token_full_review
    (marker sepr originalPRBase headCommit : String)
    (comments : List (Option String)) (body : String)
    (getFilesBetweenCommits : String → String → List ChangedFile)
    (incExt excExt incPath excPath : String)
    (hfind : comments.reverse.find? (commentMatches marker) = some (some body))
    (htok : extractBaseCommit marker sepr body = "") :
    resolveIncrementalBase marker sepr originalPRBase comments = originalPRBase ∧
    processChangedFiles marker sepr originalPRBase headCommit comments
        getFilesBetweenCommits incExt excExt incPath excPath
      = .ok (filterChangedFiles (getFilesBetweenCommits originalPRBase headCommit)
          incExt excExt incPath excPath) := by
  have hres : resolveIncrementalBase marker sepr originalPRBase comments = originalPRBase := by
    simp [resolveIncrementalBase, hfind, htok]
  exact ⟨hres, processChangedFiles_full_review marker sepr originalPRBase headCommit comments
    getFilesBetweenCommits incExt excExt incPath excPath hres⟩

/-- Witness for C10 at a concrete history whose last review comment is the
bare marker prefix: the run is a full review from the original base. -/
theorem c10_empty_token_witness :
    resolveIncrementalBase "RB:" "||" "base" [some "RB:"] = "base" ∧
    processChangedFiles "RB:" "||" "base" "head" [some "RB:"]
        (fun _ _ => [⟨"a.js", some "p"⟩]) "" "" "" ""
      = .ok (filterChangedFiles [⟨"a.js", some "p"⟩] "" "" "" "") :=
  c10_empty_token_full_review "RB:" "||" "base" "head" [some "RB:"] "RB:"
    (fun _ _ => [⟨"a.js", some "p"⟩]) "" "" "" "" rfl rfl

end AiCodeReview
